import Mathlib

/-!
# Session-Contract: verification of the allocation ledger and matching core

Shallow embedding of the Session-Contract repository's allocation ledger,
holdings projection, order book, matching engine and settlement computation.

The backend implementation (`backend/app/services/order_service.py`,
`backend/app/domain/types.py`, event store and settlement service) is not
present under `src/`; only its documentation (`src/MVP/README.md`,
`src/MVP/TECHNICAL_MANUAL.md`, the implementation summary) and the frontend
sources are.  Definitions for the backend core are therefore modelled from
the specification, as marked in their doc comments.  The frontend portfolio
valuation `calculateValue` is embedded directly from
`src/MVP/frontend/src/pages/Portfolio.jsx`.

Quantities are embedded as exact rationals, matching the spec's requirement
of exact fixed-point bookkeeping.
-/

namespace SessionContract

/-- Participant identifiers are strings (e.g. `"alice"`). -/
abbrev ParticipantId := String

/-- A leg is an asset symbol string; the synthetic numeraire leg is `"CASH"`. -/
abbrev Leg := String

/-- The synthetic cash leg of every session. -/
def CASH : Leg := "CASH"

/-- Modelled from the spec: `Holdings` is the mapping
participant → leg → signed quantity maintained by the `HoldingsProjection`
(absent backend `backend/app/domain`). -/
def Holdings : Type := ParticipantId → Leg → ℚ

/-- Modelled from the spec: add `δ` to one participant's holding of one leg
(the elementary mutation used by trade application). -/
def addQ (h : Holdings) (p₀ : ParticipantId) (l₀ : Leg) (δ : ℚ) : Holdings :=
  fun p l => if p = p₀ ∧ l = l₀ then h p l + δ else h p l

/-- Modelled from the spec: a `TradeExecuted` event debits the seller's asset
leg and credits the seller's CASH, credits the buyer's asset leg and debits
the buyer's CASH, by exactly the traded quantity and notional
(absent backend trade application). -/
def applyTradeH (h : Holdings) (buyer seller : ParticipantId) (leg : Leg)
    (qty price : ℚ) : Holdings :=
  addQ (addQ (addQ (addQ h buyer leg qty) seller leg (-qty))
    buyer CASH (-(qty * price))) seller CASH (qty * price)

/-! ## Orders and trades (data model of §3 of the spec) -/

/-- Order side. -/
inductive Side where
  | buy
  | sell
deriving DecidableEq

/-- Order type: market or limit. -/
inductive OType where
  | market
  | limit
deriving DecidableEq

/-- Order status lifecycle `pending → partialFill → filled`,
with `cancelled` reachable from the non-terminal states. -/
inductive OStatus where
  | pending
  | partialFill
  | filled
  | cancelled
deriving DecidableEq

/-- Modelled from the spec: the `Order` record of the absent
`backend/app/domain/types.py` (identifier, session-scoped participant, leg,
side, type, quantity, optional limit price, filled quantity, status, and the
creation sequence number used for time priority). -/
structure Order where
  orderId : Nat
  participantId : ParticipantId
  leg : Leg
  side : Side
  otype : OType
  quantity : ℚ
  price : Option ℚ
  filled : ℚ
  status : OStatus
  seq : Nat
deriving DecidableEq

/-- Remaining unfilled quantity of an order. -/
def remainingQty (o : Order) : ℚ := o.quantity - o.filled

/-- The limit price of an order (`0` for a market order, which never rests). -/
def limitPrice (o : Order) : ℚ := o.price.getD 0

/-- Modelled from the spec: a `Trade` (buy/sell order ids, the participants
resolved by the engine, leg, quantity, execution price). -/
structure Trade where
  buyOrderId : Nat
  sellOrderId : Nat
  buyerPid : ParticipantId
  sellerPid : ParticipantId
  leg : Leg
  qty : ℚ
  price : ℚ
deriving DecidableEq

/-! ## Events and the holdings projection -/

/-- Modelled from the spec: the tagged variant of domain events appended to
the `EventLog` (absent backend event store). -/
inductive Event where
  | sessionCreated (legs : List Leg) (q : Leg → ℚ)
  | participantJoined (participantId : ParticipantId)
  | allocationAssigned (alloc : Holdings)
  | orderPlaced (o : Order)
  | tradeExecuted (buyer seller : ParticipantId) (leg : Leg) (qty price : ℚ)
  | orderCancelled (orderId : Nat)
  | sessionSettled (payouts : ParticipantId → ℚ)

/-- Modelled from the spec: `HoldingsProjection.apply` — how a single event
mutates the holdings mapping.  Only allocation assignment and trade
execution touch holdings; all other events leave them unchanged. -/
def applyEvent (h : Holdings) : Event → Holdings
  | .allocationAssigned alloc => alloc
  | .tradeExecuted buyer seller leg qty price => applyTradeH h buyer seller leg qty price
  | _ => h

/-- Modelled from the spec: `rebuild(eventsUpToSeq)` replays an event-log
prefix over an initial holdings state. -/
def rebuild (h : Holdings) (es : List Event) : Holdings :=
  es.foldl applyEvent h

/-- Incremental application: events are applied one at a time, in arrival
order, to the in-memory state (the maintenance mode of the projection). -/
def applyIncremental : Holdings → List Event → Holdings
  | h, [] => h
  | h, e :: es => applyIncremental (applyEvent h e) es

/-! ## Invariants -/

/-- Sum of one leg's holdings over a list of participants. -/
def sumHold (ps : List ParticipantId) (h : Holdings) (l : Leg) : ℚ :=
  (ps.map (fun p => h p l)).sum

/-- Conservation: for every leg `k` of the session,
`Σ_participant holdings[participant][k] = q[k]`. -/
def Conservation (ps : List ParticipantId) (legs : List Leg) (q : Leg → ℚ)
    (h : Holdings) : Prop :=
  ∀ l ∈ legs, sumHold ps h l = q l

instance (ps : List ParticipantId) (legs : List Leg) (q : Leg → ℚ) (h : Holdings) :
    Decidable (Conservation ps legs q h) :=
  decidable_of_iff (∀ l ∈ legs, sumHold ps h l = q l) Iff.rfl

/-- Non-negativity (MVP policy): `holdings[participant][k] ≥ 0` for every
participant and leg of the session. -/
def NonNeg (ps : List ParticipantId) (legs : List Leg) (h : Holdings) : Prop :=
  ∀ p ∈ ps, ∀ l ∈ legs, 0 ≤ h p l

instance (ps : List ParticipantId) (legs : List Leg) (h : Holdings) :
    Decidable (NonNeg ps legs h) :=
  decidable_of_iff (∀ p ∈ ps, ∀ l ∈ legs, 0 ≤ h p l) Iff.rfl

/-- Modelled from the spec: the validation performed before an event is
accepted (absent backend validation utilities).  An allocation assignment is
accepted only if the assigned table itself satisfies conservation and
non-negativity; a trade is accepted only if both participants belong to the
session, quantity is positive, price is non-negative, the traded leg is an
asset leg (not CASH), the seller holds the traded quantity and the buyer
holds the traded notional in CASH.  All other events do not mutate holdings
and carry no holdings-related validation. -/
def Accepted (ps : List ParticipantId) (legs : List Leg) (q : Leg → ℚ)
    (h : Holdings) : Event → Prop
  | .allocationAssigned alloc => Conservation ps legs q alloc ∧ NonNeg ps legs alloc
  | .tradeExecuted buyer seller leg qty price =>
      buyer ∈ ps ∧ seller ∈ ps ∧ 0 < qty ∧ 0 ≤ price ∧ leg ≠ CASH ∧
        qty ≤ h seller leg ∧ qty * price ≤ h buyer CASH
  | _ => True

instance (ps : List ParticipantId) (legs : List Leg) (q : Leg → ℚ) (h : Holdings) :
    (e : Event) → Decidable (Accepted ps legs q h e) := by
  intro e
  cases e <;> unfold Accepted <;> infer_instance

/-- A log of events each of which passed validation against the holdings
state it was applied to (the "accepted mutations" of the spec). -/
inductive AcceptedLog (ps : List ParticipantId) (legs : List Leg) (q : Leg → ℚ) :
    Holdings → List Event → Prop where
  | nil (h : Holdings) : AcceptedLog ps legs q h []
  | cons {h : Holdings} {e : Event} {es : List Event}
      (hacc : Accepted ps legs q h e)
      (htail : AcceptedLog ps legs q (applyEvent h e) es) :
      AcceptedLog ps legs q h (e :: es)

/-! ## Sum lemmas for the conservation proof -/

theorem sumHold_cons (p : ParticipantId) (ps : List ParticipantId) (h : Holdings)
    (l : Leg) : sumHold (p :: ps) h l = h p l + sumHold ps h l := by
  simp [sumHold]

theorem sumHold_addQ_not_mem {ps : List ParticipantId} {p₀ : ParticipantId}
    (hnm : p₀ ∉ ps) (h : Holdings) (l₀ : Leg) (δ : ℚ) (l : Leg) :
    sumHold ps (addQ h p₀ l₀ δ) l = sumHold ps h l := by
  induction ps with
  | nil => rfl
  | cons p ps ih =>
    have hp : p ≠ p₀ := fun hEq => hnm (hEq ▸ List.mem_cons_self p ps)
    have hps : p₀ ∉ ps := fun hm => hnm (List.mem_cons_of_mem p hm)
    rw [sumHold_cons, sumHold_cons, ih hps]
    simp [addQ, hp]

theorem sumHold_addQ {ps : List ParticipantId} {p₀ : ParticipantId}
    (hnd : ps.Nodup) (hmem : p₀ ∈ ps) (h : Holdings) (l₀ : Leg) (δ : ℚ) (l : Leg) :
    sumHold ps (addQ h p₀ l₀ δ) l = sumHold ps h l + (if l = l₀ then δ else 0) := by
  induction ps with
  | nil => simp at hmem
  | cons p ps ih =>
    rw [sumHold_cons, sumHold_cons]
    by_cases hp : p = p₀
    · subst hp
      have hnm : p ∉ ps := (List.nodup_cons.mp hnd).1
      rw [sumHold_addQ_not_mem hnm]
      by_cases hl : l = l₀ <;> (simp [addQ, hl]; try ring)
    · have hm : p₀ ∈ ps := by
        rcases List.mem_cons.mp hmem with hEq | hm
        · exact absurd hEq.symm hp
        · exact hm
      rw [ih (List.nodup_cons.mp hnd).2 hm]
      have he : addQ h p₀ l₀ δ p l = h p l := by simp [addQ, hp]
      rw [he]
      ring

/-- Conservation is preserved exactly by a single accepted event. -/
theorem conservation_step {ps : List ParticipantId} {legs : List Leg}
    {q : Leg → ℚ} {h : Holdings} {e : Event}
    (hnd : ps.Nodup) (hacc : Accepted ps legs q h e)
    (hc : Conservation ps legs q h) :
    Conservation ps legs q (applyEvent h e) := by
  cases e with
  | allocationAssigned alloc => exact hacc.1
  | tradeExecuted buyer seller leg qty price =>
    obtain ⟨hb, hs, _, _, _, _, _⟩ := hacc
    intro l hl
    show sumHold ps (applyTradeH h buyer seller leg qty price) l = q l
    unfold applyTradeH
    rw [sumHold_addQ hnd hs, sumHold_addQ hnd hb, sumHold_addQ hnd hs,
      sumHold_addQ hnd hb, hc l hl]
    split_ifs <;> ring
  | sessionCreated legs' q' => exact hc
  | participantJoined pid => exact hc
  | orderPlaced o => exact hc
  | orderCancelled oid => exact hc
  | sessionSettled payouts => exact hc

/-! ## Non-negativity machinery -/

/-- A single additive update preserves non-negativity as long as the updated
cell (when it belongs to the session) stays non-negative. -/
theorem nonNeg_addQ {ps : List ParticipantId} {legs : List Leg} {h : Holdings}
    {p₀ : ParticipantId} {l₀ : Leg} {δ : ℚ}
    (hnn : NonNeg ps legs h)
    (hcell : p₀ ∈ ps → l₀ ∈ legs → 0 ≤ h p₀ l₀ + δ) :
    NonNeg ps legs (addQ h p₀ l₀ δ) := by
  intro p hp l hl
  unfold addQ
  by_cases hc : p = p₀ ∧ l = l₀
  · rw [if_pos hc]
    rw [hc.1, hc.2]
    exact hcell (hc.1 ▸ hp) (hc.2 ▸ hl)
  · rw [if_neg hc]
    exact hnn p hp l hl

/-- Non-negativity is preserved by a single accepted event. -/
theorem nonNeg_step {ps : List ParticipantId} {legs : List Leg}
    {q : Leg → ℚ} {h : Holdings} {e : Event}
    (hacc : Accepted ps legs q h e) (hnn : NonNeg ps legs h) :
    NonNeg ps legs (applyEvent h e) := by
  cases e with
  | allocationAssigned alloc => exact hacc.2
  | tradeExecuted buyer seller leg qty price =>
    obtain ⟨hb, hs, hq, hpr, hne, hsell, hbuy⟩ := hacc
    show NonNeg ps legs (applyTradeH h buyer seller leg qty price)
    unfold applyTradeH
    have hqp : 0 ≤ qty * price := mul_nonneg hq.le hpr
    have hne' : CASH ≠ leg := Ne.symm hne
    apply nonNeg_addQ
    · apply nonNeg_addQ
      · apply nonNeg_addQ
        · apply nonNeg_addQ hnn
          intro hpb hlb
          have := hnn buyer hpb leg hlb
          linarith
        · intro hps hls
          by_cases hbs : seller = buyer
          · have := hnn buyer (hbs ▸ hps) leg hls
            simp [addQ, hbs]
            linarith
          · simp [addQ, hbs]
            linarith
      · intro hpb _
        have h1 : addQ (addQ h buyer leg qty) seller leg (-qty) buyer CASH = h buyer CASH := by
          simp [addQ, hne']
        rw [h1]
        linarith
    · intro hps hlc
      by_cases hbs : seller = buyer
      · have h1 : addQ (addQ (addQ h buyer leg qty) seller leg (-qty)) buyer CASH
            (-(qty * price)) seller CASH = h buyer CASH + -(qty * price) := by
          simp [addQ, hne', hbs]
        rw [h1]
        linarith
      · have h1 : addQ (addQ (addQ h buyer leg qty) seller leg (-qty)) buyer CASH
            (-(qty * price)) seller CASH = h seller CASH := by
          simp [addQ, hne', hbs]
        rw [h1]
        have := hnn seller hps CASH hlc
        linarith
  | sessionCreated legs' q' => exact hnn
  | participantJoined pid => exact hnn
  | orderPlaced o => exact hnn
  | orderCancelled oid => exact hnn
  | sessionSettled payouts => exact hnn

theorem rebuild_cons (h : Holdings) (e : Event) (es : List Event) :
    rebuild h (e :: es) = rebuild (applyEvent h e) es := rfl

/-! ## Claim theorems: invariants (C1, C2) -/

/-- C1: for every session, at every time — that is, after replaying any
event-log prefix all of whose events passed validation against the state they
were applied to — and for every leg `k` of the session, the sum over all
participants of `holdings[participant][k]` equals the basket quantity `q k`,
with exact equality in the exact rational arithmetic of the model. -/
theorem conservation_all_times {ps : List ParticipantId} {legs : List Leg}
    {q : Leg → ℚ} {h : Holdings} {es : List Event}
    (hnd : ps.Nodup) (hlog : AcceptedLog ps legs q h es)
    (hc : Conservation ps legs q h) :
    Conservation ps legs q (rebuild h es) := by
  induction hlog with
  | nil h => exact hc
  | cons hacc htail ih =>
    rw [rebuild_cons]
    exact ih (conservation_step hnd hacc hc)

/-- C2: for every participant and leg of the session,
`holdings[participant][k] ≥ 0` after every successfully applied event: no
accepted event-log prefix ever produces a negative holding. -/
theorem nonNeg_all_times {ps : List ParticipantId} {legs : List Leg}
    {q : Leg → ℚ} {h : Holdings} {es : List Event}
    (hlog : AcceptedLog ps legs q h es) (hnn : NonNeg ps legs h) :
    NonNeg ps legs (rebuild h es) := by
  induction hlog with
  | nil h => exact hnn
  | cons hacc htail ih =>
    rw [rebuild_cons]
    exact ih (nonNeg_step hacc hnn)

/-! ### Concrete demo session for the invariant witnesses -/

/-- Demo participants: the `alice`/`bob` pair of the repository's demos. -/
def psDemo : List ParticipantId := ["alice", "bob"]

/-- Demo legs: one asset leg plus the synthetic CASH leg. -/
def legsDemo : List Leg := ["AAPL", CASH]

/-- Demo basket: 10 AAPL and 100 CASH. -/
def qDemo : Leg → ℚ := fun l => if l = "AAPL" then 10 else if l = CASH then 100 else 0

/-- Demo initial allocation: alice holds all AAPL, bob holds all CASH. -/
def hDemo : Holdings := fun p l =>
  if p = "alice" ∧ l = "AAPL" then 10 else if p = "bob" ∧ l = CASH then 100 else 0

/-- Demo event: bob buys 4 AAPL from alice at price 5. -/
def eDemo : Event := .tradeExecuted "bob" "alice" "AAPL" 4 5

theorem conservationDemo : Conservation psDemo legsDemo qDemo hDemo := by
  intro l hl
  fin_cases hl <;> simp +decide [sumHold, psDemo, hDemo, qDemo, CASH]

theorem nonNegDemo : NonNeg psDemo legsDemo hDemo := by
  intro p hp l hl
  fin_cases hp <;> fin_cases hl <;> simp +decide [hDemo, CASH]

theorem acceptedLogDemo : AcceptedLog psDemo legsDemo qDemo hDemo [eDemo] := by
  refine AcceptedLog.cons ?_ (AcceptedLog.nil _)
  show Accepted psDemo legsDemo qDemo hDemo eDemo
  refine ⟨by decide, by decide, by norm_num, by norm_num, by decide, ?_, ?_⟩
  · simp +decide [hDemo, CASH]
  · simp +decide [hDemo, CASH]
    norm_num

/-- Witness for C1 at the demo session: the hypotheses are satisfiable and
conservation holds after the accepted trade. -/
theorem conservation_all_times_witness :
    psDemo.Nodup ∧ Conservation psDemo legsDemo qDemo hDemo ∧
      Conservation psDemo legsDemo qDemo (rebuild hDemo [eDemo]) :=
  ⟨by decide, conservationDemo, conservation_all_times (by decide) acceptedLogDemo conservationDemo⟩

/-- Witness for C2 at the demo session: the hypotheses are satisfiable and
non-negativity holds after the accepted trade. -/
theorem nonNeg_all_times_witness :
    NonNeg psDemo legsDemo hDemo ∧ NonNeg psDemo legsDemo (rebuild hDemo [eDemo]) :=
  ⟨nonNegDemo, nonNeg_all_times acceptedLogDemo nonNegDemo⟩

/-! ## Claim theorem: replay determinism and incremental equivalence (C3) -/

theorem rebuild_eq_applyIncremental (h : Holdings) (es : List Event) :
    rebuild h es = applyIncremental h es := by
  induction es generalizing h with
  | nil => rfl
  | cons e es ih =>
    rw [rebuild_cons]
    exact ih (applyEvent h e)

/-- C3: rebuilding the holdings projection from an event-log prefix produces
state identical to applying the same events incrementally one at a time (both
for a whole log and when one more event arrives after a maintained prefix),
and rebuilding twice from the same prefix yields identical state. -/
theorem replay_deterministic (h : Holdings) (es : List Event) (e : Event) :
    rebuild h es = applyIncremental h es ∧
      rebuild h (es ++ [e]) = applyEvent (rebuild h es) e ∧
      rebuild h es = rebuild h es := by
  refine ⟨rebuild_eq_applyIncremental h es, ?_, rfl⟩
  unfold rebuild
  rw [List.foldl_append]
  rfl

/-! ## Claim theorem: settlement sum (C4) -/

/-- Modelled from the spec: `SettlementEngine.settle` computes
`payout[participant] = Σ_leg holdings[participant][leg] × referencePrices[leg]`
(absent backend settlement service). -/
def payout (legs : List Leg) (prices : Leg → ℚ) (h : Holdings) (p : ParticipantId) : ℚ :=
  (legs.map (fun l => h p l * prices l)).sum

/-- Sum of all participants' settlement payouts. -/
def totalPayout (ps : List ParticipantId) (legs : List Leg) (prices : Leg → ℚ)
    (h : Holdings) : ℚ :=
  (ps.map (payout legs prices h)).sum

/-- The value of the session basket at the reference prices:
`Σ_leg q[leg] × referencePrices[leg]`. -/
def basketValue (legs : List Leg) (q : Leg → ℚ) (prices : Leg → ℚ) : ℚ :=
  (legs.map (fun l => q l * prices l)).sum

theorem sum_map_add_distrib {α : Type} (L : List α) (f g : α → ℚ) :
    (L.map (fun x => f x + g x)).sum = (L.map f).sum + (L.map g).sum := by
  induction L with
  | nil => simp
  | cons x L ih => simp [ih]; ring

theorem sum_map_zero_fun {α : Type} (L : List α) :
    (L.map (fun _ => (0 : ℚ))).sum = 0 := by
  induction L with
  | nil => rfl
  | cons x L ih => simp [ih]

theorem sum_sum_comm (ps : List ParticipantId) (legs : List Leg)
    (f : ParticipantId → Leg → ℚ) :
    (ps.map (fun p => (legs.map (fun l => f p l)).sum)).sum
      = (legs.map (fun l => (ps.map (fun p => f p l)).sum)).sum := by
  induction ps with
  | nil => simp [sum_map_zero_fun]
  | cons p ps ih =>
    simp only [List.map_cons, List.sum_cons, ih]
    rw [← sum_map_add_distrib]

theorem sum_map_mul_right_const {α : Type} (L : List α) (f : α → ℚ) (r : ℚ) :
    (L.map (fun x => f x * r)).sum = (L.map f).sum * r := by
  induction L with
  | nil => simp
  | cons x L ih => simp [ih]; ring

/-- C4: for every session and complete set of reference prices, `settle`
computes `payout[participant] = Σ_leg holdings[participant][leg] ×
referencePrices[leg]` (this is the definition `payout`), and the sum of all
payouts equals `Σ_leg q[leg] × referencePrices[leg]` whenever the holdings
satisfy conservation. -/
theorem settlement_sum {ps : List ParticipantId} {legs : List Leg}
    {q : Leg → ℚ} {prices : Leg → ℚ} {h : Holdings}
    (hc : Conservation ps legs q h) :
    totalPayout ps legs prices h = basketValue legs q prices := by
  unfold totalPayout payout basketValue
  rw [sum_sum_comm]
  have hpt : ∀ l ∈ legs, (ps.map (fun p => h p l * prices l)).sum = q l * prices l := by
    intro l hl
    rw [sum_map_mul_right_const]
    have : (ps.map fun p => h p l).sum = q l := hc l hl
    rw [this]
  rw [List.map_congr_left hpt]

/-! ### Concrete settlement witness: the `[AAPL, NVDA]` example of the spec -/

/-- Settlement demo legs. -/
def legsSettle : List Leg := ["AAPL", "NVDA"]

/-- Settlement demo basket: `q = [100, 60]`. -/
def qSettle : Leg → ℚ := fun l => if l = "AAPL" then 100 else if l = "NVDA" then 60 else 0

/-- Settlement demo final reference prices: `[200, 500]`. -/
def pricesSettle : Leg → ℚ := fun l => if l = "AAPL" then 200 else if l = "NVDA" then 500 else 0

/-- Settlement demo holdings: alice holds 30 AAPL and 50 NVDA, bob the rest. -/
def hSettle : Holdings := fun p l =>
  if p = "alice" then (if l = "AAPL" then 30 else if l = "NVDA" then 50 else 0)
  else if p = "bob" then (if l = "AAPL" then 70 else if l = "NVDA" then 10 else 0)
  else 0

/-- Witness for C4: the conservation hypothesis holds at the demo settlement
state, the payout sum equals the basket value, and that value is 50,000. -/
theorem settlement_sum_witness :
    Conservation psDemo legsSettle qSettle hSettle ∧
      totalPayout psDemo legsSettle pricesSettle hSettle
        = basketValue legsSettle qSettle pricesSettle ∧
      basketValue legsSettle qSettle pricesSettle = 50000 := by
  have hc : Conservation psDemo legsSettle qSettle hSettle := by
    intro l hl
    fin_cases hl <;> simp +decide [sumHold, psDemo, hSettle, qSettle] <;> norm_num
  refine ⟨hc, settlement_sum hc, ?_⟩
  simp +decide [basketValue, legsSettle, qSettle, pricesSettle]
  try norm_num

/-! ## Order book and matching engine (modelled from §4.3–§4.4 of the spec) -/

/-- Modelled from the spec: ask-side ranking — lower price first, then lower
sequence number as the tie-break. -/
def askRankedBefore (a b : Order) : Bool :=
  decide (limitPrice a < limitPrice b) ||
    (decide (limitPrice a = limitPrice b) && decide (a.seq < b.seq))

/-- Modelled from the spec: bid-side ranking — higher price first, then lower
sequence number as the tie-break. -/
def bidRankedBefore (a b : Order) : Bool :=
  decide (limitPrice b < limitPrice a) ||
    (decide (limitPrice a = limitPrice b) && decide (a.seq < b.seq))

/-- Modelled from the spec: `OrderBook.insert` on the ask side, keeping the
resting asks ranked by (price ascending, then sequence number ascending). -/
def insertAsk (o : Order) : List Order → List Order
  | [] => [o]
  | a :: rest => if askRankedBefore o a then o :: a :: rest else a :: insertAsk o rest

/-- Modelled from the spec: `OrderBook.insert` on the bid side, keeping the
resting bids ranked by (price descending, then sequence number ascending). -/
def insertBid (o : Order) : List Order → List Order
  | [] => [o]
  | a :: rest => if bidRankedBefore o a then o :: a :: rest else a :: insertBid o rest

/-- Modelled from the spec: the match condition for an incoming buy against a
resting ask — `buyPrice ≥ sellPrice`, or either side is Market. -/
def canMatchBuy (inc rest : Order) : Bool :=
  (inc.otype == OType.market) || (rest.otype == OType.market) ||
    decide (limitPrice rest ≤ limitPrice inc)

/-- Modelled from the spec: the match condition for an incoming sell against a
resting bid — `sellPrice ≤ buyPrice`, or either side is Market. -/
def canMatchSell (inc rest : Order) : Bool :=
  (inc.otype == OType.market) || (rest.otype == OType.market) ||
    decide (limitPrice inc ≤ limitPrice rest)

/-- Advance an order's filled quantity by `δ` and recompute its status from
the filled/quantity comparison (`Partial` below quantity, `Filled` at it). -/
def fillOrder (o : Order) (δ : ℚ) : Order :=
  { o with filled := o.filled + δ,
           status := if o.quantity ≤ o.filled + δ then OStatus.filled
                     else OStatus.partialFill }

/-- The trade produced when an incoming buy matches a resting ask: executed at
the resting order's limit price. -/
def mkTradeBuy (inc rest : Order) (δ : ℚ) : Trade :=
  { buyOrderId := inc.orderId, sellOrderId := rest.orderId,
    buyerPid := inc.participantId, sellerPid := rest.participantId,
    leg := rest.leg, qty := δ, price := limitPrice rest }

/-- The trade produced when an incoming sell matches a resting bid: executed at
the resting order's limit price. -/
def mkTradeSell (inc rest : Order) (δ : ℚ) : Trade :=
  { buyOrderId := rest.orderId, sellOrderId := inc.orderId,
    buyerPid := rest.participantId, sellerPid := inc.participantId,
    leg := rest.leg, qty := δ, price := limitPrice rest }

/-- Modelled from the spec: the matching loop for an incoming buy order.
It repeatedly pairs the incoming order against the best-ranked resting ask
while the match condition holds, executing each trade at the resting order's
price for `min(remaining_incoming, remaining_resting)`; it stops when the
incoming order is fully filled, the book is exhausted, or the next resting
price no longer satisfies the condition.  Returns the updated incoming order,
the remaining ask book and the trades in execution order. -/
def matchBuy (inc : Order) : List Order → Order × List Order × List Trade
  | [] => (inc, [], [])
  | a :: rest =>
    if 0 < remainingQty inc ∧ canMatchBuy inc a = true then
      let δ := min (remainingQty inc) (remainingQty a)
      let inc' := fillOrder inc δ
      let a' := fillOrder a δ
      let tr := mkTradeBuy inc a δ
      if remainingQty a' = 0 then
        let r := matchBuy inc' rest
        (r.1, r.2.1, tr :: r.2.2)
      else
        (inc', a' :: rest, [tr])
    else
      (inc, a :: rest, [])

/-- Modelled from the spec: the matching loop for an incoming sell order,
symmetric to `matchBuy` over the bid side. -/
def matchSell (inc : Order) : List Order → Order × List Order × List Trade
  | [] => (inc, [], [])
  | a :: rest =>
    if 0 < remainingQty inc ∧ canMatchSell inc a = true then
      let δ := min (remainingQty inc) (remainingQty a)
      let inc' := fillOrder inc δ
      let a' := fillOrder a δ
      let tr := mkTradeSell inc a δ
      if remainingQty a' = 0 then
        let r := matchSell inc' rest
        (r.1, r.2.1, tr :: r.2.2)
      else
        (inc', a' :: rest, [tr])
    else
      (inc, a :: rest, [])

/-! ## Matching engine state and `placeOrder` -/

/-- Error kinds of §7 of the spec. -/
inductive OrderError where
  | invalidOrder
  | sessionNotActive
  | insufficientFunds
  | insufficientHoldings
  | notFound
  | notOwner
  | alreadyTerminal
  | missingPrice
deriving DecidableEq

/-- Modelled from the spec: one session's matching state — lifecycle flag,
holdings projection, per-leg ask and bid books, the event log, and the
id/sequence counters (absent backend `OrderService`). -/
structure EngineState where
  sessionActive : Bool
  holdings : Holdings
  asks : Leg → List Order
  bids : Leg → List Order
  log : List Event
  nextOrderId : Nat
  nextSeq : Nat

/-- Replace one leg's resting list inside a per-leg book. -/
def updateBook (book : Leg → List Order) (leg : Leg) (v : List Order) :
    Leg → List Order :=
  fun l => if l = leg then v else book l

/-- Apply a list of executed trades to the holdings projection, in order. -/
def applyTradesH (h : Holdings) (trs : List Trade) : Holdings :=
  trs.foldl (fun hh t => applyTradeH hh t.buyerPid t.sellerPid t.leg t.qty t.price) h

/-- The `TradeExecuted` event emitted for one executed trade. -/
def tradeEventOf (t : Trade) : Event :=
  .tradeExecuted t.buyerPid t.sellerPid t.leg t.qty t.price

/-- The fresh order record created by `placeOrder` after validation. -/
def newOrder (st : EngineState) (pid : ParticipantId) (leg : Leg) (side : Side)
    (otype : OType) (qty : ℚ) (price : Option ℚ) : Order :=
  { orderId := st.nextOrderId, participantId := pid, leg := leg, side := side,
    otype := otype, quantity := qty, price := price, filled := 0,
    status := OStatus.pending, seq := st.nextSeq }

/-- Modelled from the spec: the post-validation phase of `placeOrder` — emit
`OrderPlaced`, run the matching loop against the opposite book, apply the
trades to holdings, emit one `TradeExecuted` per match, rest any unmatched
Limit remainder in the book, and cancel any unmatched Market remainder. -/
def runOrder (st : EngineState) (o : Order) : EngineState × Except OrderError Order :=
  match o.side with
  | .buy =>
    let r := matchBuy o (st.asks o.leg)
    let h' := applyTradesH st.holdings r.2.2
    let log' := st.log ++ [Event.orderPlaced o] ++ r.2.2.map tradeEventOf
    if 0 < remainingQty r.1 then
      match o.otype with
      | .limit =>
        ({ st with holdings := h', asks := updateBook st.asks o.leg r.2.1,
                   bids := updateBook st.bids o.leg (insertBid r.1 (st.bids o.leg)),
                   log := log', nextOrderId := st.nextOrderId + 1,
                   nextSeq := st.nextSeq + 1 + r.2.2.length }, .ok r.1)
      | .market =>
        ({ st with holdings := h', asks := updateBook st.asks o.leg r.2.1,
                   log := log' ++ [Event.orderCancelled r.1.orderId],
                   nextOrderId := st.nextOrderId + 1,
                   nextSeq := st.nextSeq + 2 + r.2.2.length },
         .ok { r.1 with status := OStatus.cancelled })
    else
      ({ st with holdings := h', asks := updateBook st.asks o.leg r.2.1,
                 log := log', nextOrderId := st.nextOrderId + 1,
                 nextSeq := st.nextSeq + 1 + r.2.2.length }, .ok r.1)
  | .sell =>
    let r := matchSell o (st.bids o.leg)
    let h' := applyTradesH st.holdings r.2.2
    let log' := st.log ++ [Event.orderPlaced o] ++ r.2.2.map tradeEventOf
    if 0 < remainingQty r.1 then
      match o.otype with
      | .limit =>
        ({ st with holdings := h', bids := updateBook st.bids o.leg r.2.1,
                   asks := updateBook st.asks o.leg (insertAsk r.1 (st.asks o.leg)),
                   log := log', nextOrderId := st.nextOrderId + 1,
                   nextSeq := st.nextSeq + 1 + r.2.2.length }, .ok r.1)
      | .market =>
        ({ st with holdings := h', bids := updateBook st.bids o.leg r.2.1,
                   log := log' ++ [Event.orderCancelled r.1.orderId],
                   nextOrderId := st.nextOrderId + 1,
                   nextSeq := st.nextSeq + 2 + r.2.2.length },
         .ok { r.1 with status := OStatus.cancelled })
    else
      ({ st with holdings := h', bids := updateBook st.bids o.leg r.2.1,
                 log := log', nextOrderId := st.nextOrderId + 1,
                 nextSeq := st.nextSeq + 1 + r.2.2.length }, .ok r.1)

/-- Modelled from the spec: the pre-trade funds/holdings validation of
`placeOrder`.  For a Sell, the participant's leg holding must cover the
quantity (`InsufficientHoldings` otherwise); for a Limit Buy, the CASH
holding must cover `quantity × price` (`InsufficientFunds` otherwise); for a
Market Buy the check is deferred to match time, since the price is unknown
ahead of matching. -/
def validateFunds (st : EngineState) (pid : ParticipantId) (leg : Leg)
    (side : Side) (otype : OType) (qty : ℚ) (price : Option ℚ) :
    EngineState × Except OrderError Order :=
  match side with
  | .sell =>
    if st.holdings pid leg < qty then (st, .error .insufficientHoldings)
    else runOrder st (newOrder st pid leg side otype qty price)
  | .buy =>
    match price with
    | some p =>
      if st.holdings pid CASH < qty * p then (st, .error .insufficientFunds)
      else runOrder st (newOrder st pid leg side otype qty price)
    | none => runOrder st (newOrder st pid leg side otype qty price)

/-- Modelled from the spec: `placeOrder(participantId, leg, side, type,
quantity, price?)`.  Validation fails fast with no state change:
`SessionNotActive` outside the Active window, `InvalidOrder` on non-positive
quantity or a Limit order without a positive price, then the funds/holdings
checks of `validateFunds`. -/
def placeOrder (st : EngineState) (pid : ParticipantId) (leg : Leg) (side : Side)
    (otype : OType) (qty : ℚ) (price : Option ℚ) :
    EngineState × Except OrderError Order :=
  if st.sessionActive = false then (st, .error .sessionNotActive)
  else if qty ≤ 0 then (st, .error .invalidOrder)
  else
    match otype, price with
    | .limit, none => (st, .error .invalidOrder)
    | .limit, some p =>
      if p ≤ 0 then (st, .error .invalidOrder)
      else validateFunds st pid leg side .limit qty (some p)
    | .market, _ => validateFunds st pid leg side .market qty none

theorem remainingQty_fillOrder (o : Order) (δ : ℚ) :
    remainingQty (fillOrder o δ) = remainingQty o - δ := by
  simp [remainingQty, fillOrder]
  ring

/-! ## Claim theorem: price-time priority (C5) -/

/-- C5: for two resting Limit sell orders at the same price with sequence
numbers `s1 < s2`, the book ranks the earlier order first regardless of
insertion order, and an incoming buy order that can only partially fill
(its remainder is smaller than the first order's) executes exactly one trade,
against the order with the smaller sequence number, leaving the later order
untouched in the book. -/
theorem price_time_priority (o1 o2 inc : Order) (p : ℚ)
    (_h1t : o1.otype = OType.limit) (_h2t : o2.otype = OType.limit)
    (_h1s : o1.side = Side.sell) (_h2s : o2.side = Side.sell)
    (h1p : o1.price = some p) (h2p : o2.price = some p)
    (hseq : o1.seq < o2.seq)
    (hm : canMatchBuy inc o1 = true)
    (hri : 0 < remainingQty inc)
    (hlt : remainingQty inc < remainingQty o1) :
    insertAsk o2 (insertAsk o1 []) = [o1, o2] ∧
      insertAsk o1 (insertAsk o2 []) = [o1, o2] ∧
      matchBuy inc [o1, o2]
        = (fillOrder inc (remainingQty inc),
           (fillOrder o1 (remainingQty inc) :: [o2],
            [mkTradeBuy inc o1 (remainingQty inc)])) ∧
      (mkTradeBuy inc o1 (remainingQty inc)).sellOrderId = o1.orderId := by
  have hp1 : limitPrice o1 = p := by simp [limitPrice, h1p]
  have hp2 : limitPrice o2 = p := by simp [limitPrice, h2p]
  refine ⟨?_, ?_, ?_, rfl⟩
  · simp [insertAsk, askRankedBefore, hp1, hp2, Nat.lt_asymm hseq]
  · simp [insertAsk, askRankedBefore, hp1, hp2, hseq]
  · have hmin : min (remainingQty inc) (remainingQty o1) = remainingQty inc :=
      min_eq_left hlt.le
    have hrem : ¬ remainingQty (fillOrder o1 (min (remainingQty inc) (remainingQty o1))) = 0 := by
      rw [hmin, remainingQty_fillOrder]
      exact sub_ne_zero.mpr (ne_of_gt hlt)
    simp only [matchBuy]
    rw [if_pos ⟨hri, hm⟩, if_neg hrem, hmin]

/-! ## Claim theorem: partial-fill correctness (C6) -/

/-- C6: when an incoming buy order matches a single resting ask whose
remainder is strictly smaller than the incoming remainder, the matching loop
produces exactly one trade, executed at the resting order's limit price, for
`min(remaining_incoming, remaining_resting)`; the incoming order ends
`Partial` with its filled quantity advanced by the traded amount, and the
resting order ends `Filled` and leaves the book. -/
theorem partial_fill_correct (inc a : Order)
    (hm : canMatchBuy inc a = true)
    (hra : 0 < remainingQty a)
    (hlt : remainingQty a < remainingQty inc) :
    matchBuy inc [a]
      = (fillOrder inc (remainingQty a),
         (([] : List Order), [mkTradeBuy inc a (remainingQty a)])) ∧
      (mkTradeBuy inc a (remainingQty a)).price = limitPrice a ∧
      (mkTradeBuy inc a (remainingQty a)).qty
        = min (remainingQty inc) (remainingQty a) ∧
      (fillOrder inc (remainingQty a)).status = OStatus.partialFill ∧
      (fillOrder inc (remainingQty a)).filled = inc.filled + remainingQty a ∧
      (fillOrder a (remainingQty a)).status = OStatus.filled := by
  have hri : 0 < remainingQty inc := hra.trans hlt
  have hmin : min (remainingQty inc) (remainingQty a) = remainingQty a :=
    min_eq_right hlt.le
  have hrem : remainingQty (fillOrder a (min (remainingQty inc) (remainingQty a))) = 0 := by
    rw [hmin, remainingQty_fillOrder]
    ring
  refine ⟨?_, rfl, by rw [hmin]; rfl, ?_, rfl, ?_⟩
  · simp only [matchBuy]
    rw [if_pos ⟨hri, hm⟩, if_pos hrem, hmin]
  · have : ¬ inc.quantity ≤ inc.filled + remainingQty a := by
      have := hlt
      unfold remainingQty at this ⊢
      intro hcon
      linarith
    simp [fillOrder, this]
  · have : a.quantity ≤ a.filled + remainingQty a := by
      unfold remainingQty
      linarith
    simp [fillOrder, this]

/-! ### Concrete orders for the matching witnesses -/

/-- Resting sell: 6 AAPL at limit 150, sequence 0. -/
def askDemo1 : Order :=
  { orderId := 10, participantId := "bob", leg := "AAPL", side := Side.sell,
    otype := OType.limit, quantity := 6, price := some 150, filled := 0,
    status := OStatus.pending, seq := 0 }

/-- Resting sell: 5 AAPL at the same limit 150, later sequence 1. -/
def askDemo2 : Order :=
  { orderId := 11, participantId := "carol", leg := "AAPL", side := Side.sell,
    otype := OType.limit, quantity := 5, price := some 150, filled := 0,
    status := OStatus.pending, seq := 1 }

/-- Incoming buy: 10 AAPL at limit 150 (the spec's partial-fill example). -/
def buyDemo : Order :=
  { orderId := 12, participantId := "alice", leg := "AAPL", side := Side.buy,
    otype := OType.limit, quantity := 10, price := some 150, filled := 0,
    status := OStatus.pending, seq := 2 }

/-- Incoming buy: 4 AAPL at limit 150 (smaller than both resting asks). -/
def buySmallDemo : Order :=
  { orderId := 13, participantId := "alice", leg := "AAPL", side := Side.buy,
    otype := OType.limit, quantity := 4, price := some 150, filled := 0,
    status := OStatus.pending, seq := 2 }

/-- Witness for C5 at concrete orders: two resting sells at 150 with
sequence numbers 0 < 1, and an incoming buy for 4 that fills against the
earlier order only. -/
theorem price_time_priority_witness :
    askDemo1.seq < askDemo2.seq ∧ canMatchBuy buySmallDemo askDemo1 = true ∧
      0 < remainingQty buySmallDemo ∧
      remainingQty buySmallDemo < remainingQty askDemo1 ∧
      matchBuy buySmallDemo [askDemo1, askDemo2]
        = (fillOrder buySmallDemo (remainingQty buySmallDemo),
           (fillOrder askDemo1 (remainingQty buySmallDemo) :: [askDemo2],
            [mkTradeBuy buySmallDemo askDemo1 (remainingQty buySmallDemo)])) ∧
      (mkTradeBuy buySmallDemo askDemo1 (remainingQty buySmallDemo)).sellOrderId
        = askDemo1.orderId := by
  have h1 : askDemo1.seq < askDemo2.seq := by decide
  have h2 : canMatchBuy buySmallDemo askDemo1 = true := by decide
  have h3 : 0 < remainingQty buySmallDemo := by norm_num [remainingQty, buySmallDemo]
  have h4 : remainingQty buySmallDemo < remainingQty askDemo1 := by
    norm_num [remainingQty, buySmallDemo, askDemo1]
  have hmain := price_time_priority askDemo1 askDemo2 buySmallDemo 150
    (by decide) (by decide) (by decide) (by decide) (by decide) (by decide) h1 h2 h3 h4
  exact ⟨h1, h2, h3, h4, hmain.2.2.1, hmain.2.2.2⟩

/-- Witness for C6 at the spec's example: incoming Buy Limit 10 at 150
against resting Sell Limit 6 at 150 yields one trade of quantity 6 at price
150, the incoming order `Partial` with `filled = 6`, the resting order
`Filled`. -/
theorem partial_fill_correct_witness :
    canMatchBuy buyDemo askDemo1 = true ∧ 0 < remainingQty askDemo1 ∧
      remainingQty askDemo1 < remainingQty buyDemo ∧
      matchBuy buyDemo [askDemo1]
        = (fillOrder buyDemo (remainingQty askDemo1),
           (([] : List Order), [mkTradeBuy buyDemo askDemo1 (remainingQty askDemo1)])) ∧
      (mkTradeBuy buyDemo askDemo1 (remainingQty askDemo1)).qty = 6 ∧
      (mkTradeBuy buyDemo askDemo1 (remainingQty askDemo1)).price = 150 ∧
      (fillOrder buyDemo (remainingQty askDemo1)).status = OStatus.partialFill ∧
      (fillOrder buyDemo (remainingQty askDemo1)).filled = 6 ∧
      (fillOrder askDemo1 (remainingQty askDemo1)).status = OStatus.filled := by
  have h2 : canMatchBuy buyDemo askDemo1 = true := by decide
  have h3 : 0 < remainingQty askDemo1 := by norm_num [remainingQty, askDemo1]
  have h4 : remainingQty askDemo1 < remainingQty buyDemo := by
    norm_num [remainingQty, askDemo1, buyDemo]
  have hmain := partial_fill_correct buyDemo askDemo1 h2 h3 h4
  refine ⟨h2, h3, h4, hmain.1, ?_, ?_, hmain.2.2.2.1, ?_, hmain.2.2.2.2.2⟩
  · norm_num [mkTradeBuy, remainingQty, askDemo1]
  · norm_num [mkTradeBuy, limitPrice, askDemo1]
  · rw [hmain.2.2.2.2.1]
    norm_num [remainingQty, buyDemo, askDemo1]

/-! ## Claim theorem: rejection on insufficient holdings (C7) -/

/-- C7: a Sell order whose quantity exceeds the participant's holding of the
traded leg is rejected by `placeOrder` with `InsufficientHoldings`; the
returned state is identically the input state, so no event is appended and
holdings and order books are untouched. -/
theorem insufficient_holdings_rejected (st : EngineState) (pid : ParticipantId)
    (leg : Leg) (otype : OType) (qty : ℚ) (price : Option ℚ)
    (hact : st.sessionActive = true)
    (hq : 0 < qty)
    (hwf : otype = OType.limit → ∃ pr, price = some pr ∧ 0 < pr)
    (hins : st.holdings pid leg < qty) :
    placeOrder st pid leg Side.sell otype qty price
      = (st, Except.error OrderError.insufficientHoldings) := by
  cases otype with
  | market =>
    simp [placeOrder, validateFunds, hact, hins, not_le.mpr hq]
  | limit =>
    obtain ⟨pr, rfl, hpr⟩ := hwf rfl
    simp [placeOrder, validateFunds, hact, hins, not_le.mpr hq, not_le.mpr hpr]

/-- The engine state for the C7 witness: an active session where alice holds
5 AAPL and nothing else; empty books and log. -/
def stDemo : EngineState :=
  { sessionActive := true,
    holdings := fun p l => if p = "alice" ∧ l = "AAPL" then 5 else 0,
    asks := fun _ => [], bids := fun _ => [],
    log := [], nextOrderId := 0, nextSeq := 0 }

/-- Witness for C7 at the spec's example: alice, holding `AAPL: 5`, places a
Sell order for quantity 10 and receives `InsufficientHoldings` with the state
unchanged. -/
theorem insufficient_holdings_rejected_witness :
    stDemo.sessionActive = true ∧ (0 : ℚ) < 10 ∧
      stDemo.holdings "alice" "AAPL" < 10 ∧
      placeOrder stDemo "alice" "AAPL" Side.sell OType.market 10 none
        = (stDemo, Except.error OrderError.insufficientHoldings) := by
  have hins : stDemo.holdings "alice" "AAPL" < 10 := by
    simp +decide [stDemo]
  exact ⟨rfl, by norm_num, hins,
    insufficient_holdings_rejected stDemo "alice" "AAPL" OType.market 10 none rfl
      (by norm_num) (by intro hcon; cases hcon) hins⟩

/-! ## Frontend portfolio valuation (`src/MVP/frontend/src/pages/Portfolio.jsx`) -/

/-- `prices[leg] || 0` of `Portfolio.jsx`: look a leg up in the price mapping
and fall back to `0` when it is absent (a price of `0` is itself falsy in the
source, with the same resulting value `0`). -/
def priceOf (prices : List (Leg × ℚ)) (leg : Leg) : ℚ :=
  (prices.lookup leg).getD 0

/-- `calculateValue(allocation)` of `Portfolio.jsx`:

```js
function calculateValue(allocation) {
  if (!allocation || Object.keys(prices).length === 0) return 0
  return Object.entries(allocation).reduce((sum, [leg, qty]) => {
    return sum + (qty * (prices[leg] || 0))
  }, 0)
}
```

The captured `prices` state is a finite mapping (embedded as an association
list in entry order), `allocation` may be absent (`none`), and the reduce is
a left fold starting from `0`. -/
def calculateValue (prices : List (Leg × ℚ)) (allocation : Option (List (Leg × ℚ))) : ℚ :=
  match allocation with
  | none => 0
  | some entries =>
    if prices.isEmpty then 0
    else entries.foldl (fun sum e => sum + e.2 * priceOf prices e.1) 0

theorem foldl_value_add (prices : List (Leg × ℚ)) (entries : List (Leg × ℚ)) (c : ℚ) :
    entries.foldl (fun sum e => sum + e.2 * priceOf prices e.1) c
      = c + entries.foldl (fun sum e => sum + e.2 * priceOf prices e.1) 0 := by
  induction entries generalizing c with
  | nil => simp
  | cons e entries ih =>
    simp only [List.foldl_cons]
    rw [ih (c + e.2 * priceOf prices e.1), ih (0 + e.2 * priceOf prices e.1)]
    ring

/-- C9: `calculateValue` returns `0` when the allocation is absent or the
price mapping is empty, and a leg that lacks a price contributes exactly `0`
to the total (the remaining entries are valued as if the missing-price entry
were not there). -/
theorem calculateValue_missing_price (prices : List (Leg × ℚ))
    (entries : List (Leg × ℚ)) (leg : Leg) (qty : ℚ) (rest : List (Leg × ℚ)) :
    calculateValue prices none = 0 ∧
      calculateValue [] (some entries) = 0 ∧
      (prices ≠ [] → prices.lookup leg = none →
        calculateValue prices (some ((leg, qty) :: rest))
          = calculateValue prices (some rest)) := by
  refine ⟨rfl, rfl, ?_⟩
  intro hne hlook
  have hemp : prices.isEmpty = false := by
    cases prices with
    | nil => exact absurd rfl hne
    | cons a l => rfl
  simp only [calculateValue, List.foldl_cons]
  rw [if_neg (by simp [hemp]), if_neg (by simp [hemp]), foldl_value_add prices rest]
  simp [priceOf, hlook]

/-- Witness for C9: with a price board carrying only AAPL, an allocation
entry for NVDA (which lacks a price) contributes exactly zero. -/
theorem calculateValue_missing_price_witness :
    ([("AAPL", (200 : ℚ))] : List (Leg × ℚ)) ≠ [] ∧
      ([("AAPL", (200 : ℚ))] : List (Leg × ℚ)).lookup "NVDA" = none ∧
      calculateValue [("AAPL", (200 : ℚ))] (some [("NVDA", 5), ("AAPL", 2)])
        = calculateValue [("AAPL", (200 : ℚ))] (some [("AAPL", 2)]) := by
  refine ⟨by decide, by decide, ?_⟩
  exact (calculateValue_missing_price [("AAPL", (200 : ℚ))] [] "NVDA" 5
    [("AAPL", 2)]).2.2 (by decide) (by decide)

end SessionContract
